import Mathlib

/-!
# Timer table generator (`table_gen.cpp`)

`main` prints a C array initialiser with 4096 entries.  Entry `i` is

    volts = (5 * i) / 4096.0
    freq  = 65.406391325 * pow(2.0, volts)
    (uint16_t)(500000 / freq)

The `double` arithmetic is read over exact reals.  Two descriptions of the
entry are given and proved equal:

* `timerValue`, an executable evaluator working in exact integer arithmetic
  (it is the one used by the model of `main`);
* `specValue`, the formula written over `ℝ` with `Real.rpow`, `Int.floor`
  and reduction modulo `2 ^ 16`.
-/

namespace TableGen

/-! ## The table entry, executable -/

/-- Exact test for `n ≤ 500000 / freq` at index `i`, where
`freq = 65.406391325 * 2 ^ ((5 * i) / 4096)`.  Both sides of
`n * freq ≤ 500000` are non-negative, so the comparison is made on
4096-th powers, scaled by `(10 ^ 9) ^ 4096` to clear the decimal constant:
`(2 ^ ((5 * i) / 4096)) ^ 4096 = 2 ^ (5 * i)`. -/
def atMostQuotient (n i : ℕ) : Bool :=
  decide ((n * 65406391325) ^ 4096 * 2 ^ (5 * i) ≤ (500000 * 1000000000) ^ 4096)

/-- Bisection: with `p lo` true and `p hi` false, the returned `r` is
in `[lo, hi)` with `p r` true and `p (r + 1)` false, once the fuel covers
the halvings of `hi - lo`. -/
def searchFloor (p : ℕ → Bool) : ℕ → ℕ → ℕ → ℕ
  | 0, lo, _ => lo
  | fuel + 1, lo, hi =>
    if hi ≤ lo + 1 then lo
    else if p ((lo + hi) / 2) then searchFloor p fuel ((lo + hi) / 2) hi
    else searchFloor p fuel lo ((lo + hi) / 2)

/-- The integer part of `500000 / freq` at index `i`: the greatest `n` with
`n ≤ 500000 / freq`.  The search runs over `[0, 500001)`; `freq > 1` puts the
quotient below `500001`. -/
def floorQuotient (i : ℕ) : ℕ :=
  searchFloor (fun n => atMostQuotient n i) 19 0 500001

/-- The cast `(uint16_t)x` of a non-negative integer part: reduction
modulo `2 ^ 16`. -/
def toUInt16 (n : ℕ) : ℕ := n % 2 ^ 16

/-- The value printed at iteration `i`: `(uint16_t)(500000 / freq)`. -/
def timerValue (i : ℕ) : ℕ := toUInt16 (floorQuotient i)

/-! ## The table entry, over the reals -/

/-- The real `volts = (5 * i) / 4096.0`, the product `5 * i` being an
integer product. -/
noncomputable def specVolts (i : ℕ) : ℝ := ((5 * i : ℕ) : ℝ) / 4096.0

/-- The real `freq = 65.406391325 * pow(2.0, volts)`. -/
noncomputable def specFreq (i : ℕ) : ℝ := 65.406391325 * (2.0 : ℝ) ^ specVolts i

/-- The real quotient `500000 / freq`. -/
noncomputable def specQuotient (i : ℕ) : ℝ := 500000 / specFreq i

/-- Conversion of a real to `uint16_t`: the fractional part is discarded
(truncation toward zero) and the integer is reduced modulo `2 ^ 16`. -/
noncomputable def truncUInt16 (x : ℝ) : ℤ :=
  (if 0 ≤ x then ⌊x⌋ else ⌈x⌉) % 2 ^ 16

/-- The real-number reading of `(uint16_t)(500000 / freq)`. -/
noncomputable def specValue (i : ℕ) : ℤ := truncUInt16 (specQuotient i)

/-- Round-to-nearest of the quotient (halves away from zero, as C `round`;
the quotient is positive), the alternative to truncation. -/
noncomputable def specRounded (i : ℕ) : ℤ := round (specQuotient i)

/-! ## The program -/

/-- The conversion `%d` of `printf` applied to a `uint16_t` argument (promoted
to a non-negative `int`): its decimal digits, no sign and no padding. -/
def formatD (v : ℕ) : String := Nat.repr v

/-- One iteration of the `for` loop on the text written so far:
`if ((i % 8) == 0) printf("\n\t");` then
`printf("%d, ", (uint16_t)(500000 / freq));`. -/
def loopBody (out : String) (i : ℕ) : String :=
  let out := if i % 8 = 0 then out ++ "\n\t" else out
  out ++ (formatD (timerValue i) ++ ", ")

/-- The program: the text written to standard output and the exit status.
The `for` loop runs the body for `i = 0, 1, ..., 4095` in this order. -/
def main : String × ℤ :=
  let out := "const PROGMEM uint16_t TIMER_TABLE[4096]\n"
  let out := out ++ "\x7b"
  let out := (List.range 4096).foldl loopBody out
  let out := out ++ "\x7d;\n"
  (out, 0)

/-! ## Reading the output back -/

/-- The text strictly between the first opening brace and the next closing
brace. -/
def betweenBraces (text : List Char) : List Char :=
  ((text.dropWhile (fun c => c != '\x7b')).drop 1).takeWhile (fun c => c != '\x7d')

/-- Blank characters: space, tab, newline. -/
def isBlank (c : Char) : Bool := c == ' ' || c == '\t' || c == '\n'

/-- The comma-terminated tokens of a text, blanks dropped: `tok` collects the
current token in reverse. -/
def commaTokens : List Char → List Char → List (List Char)
  | _, [] => []
  | tok, c :: cs =>
    if c = ',' then tok.reverse :: commaTokens [] cs
    else if isBlank c then commaTokens tok cs
    else commaTokens (c :: tok) cs

/-- The number a decimal numeral denotes. -/
def decimalValue (digits : List Char) : ℕ :=
  digits.foldl (fun acc c => 10 * acc + (c.toNat - '0'.toNat)) 0

/-- The characters iteration `i` writes: the separator on indices divisible
by 8, the digits of the value, a comma and a space. -/
def entryData (i : ℕ) : List Char :=
  (if i % 8 = 0 then ['\n', '\t'] else []) ++ (Nat.repr (timerValue i)).data ++ [',', ' ']

/-- A line of eight values, from index `8 * k`: a tab, then each value with
its comma and space. -/
def rowData (k : ℕ) : List Char :=
  '\t' :: ((List.range 8).map fun j =>
    (Nat.repr (timerValue (8 * k + j))).data ++ [',', ' ']).flatten

/-- Two's-complement wrap-around of an integer to a signed type of the
given width. -/
def wrapSigned (bits : ℕ) (n : ℤ) : ℤ :=
  (n + 2 ^ (bits - 1)) % 2 ^ bits - 2 ^ (bits - 1)

/-- The `int` product `5 * i` of `double volts = (5 * i) / 4096.0;`, for a
32-bit `int`. -/
def intProduct (i : ℕ) : ℤ := wrapSigned 32 (5 * (i : ℤ))

/-- The number of places in a text where a newline is directly followed by
a tab. -/
def countNewlineTab : List Char → ℕ
  | [] => 0
  | c :: rest =>
    (if c = '\n' ∧ rest.head? = some '\t' then 1 else 0) + countNewlineTab rest

/-! ## The program as a machine -/

/-- Program points of `main`, one per statement. -/
inductive Pc where
  | header
  | brace
  | forInit
  | forTest
  | body
  | forIncr
  | closing
  | ret
  | halted
  deriving DecidableEq

/-- What the process is started with and a statement could consult: the
command-line arguments, the environment variables and the text waiting on
standard input. -/
structure World where
  args : List String
  env : List (String × String)
  stdin : List Char

/-- Machine state: program point, the memory cell of the loop counter `i`,
text written to standard output so far, exit status once `main` has
returned, and the world the process runs in. -/
structure State where
  pc : Pc
  i : ℕ
  out : String
  status : Option ℤ
  world : World

/-- State at the start of `main` in world `w`: nothing written, not yet
returned; the cell of `i` holds `cell`, whatever was left there, until the
`for` statement initialises it. -/
def start (w : World) (cell : ℕ) : State := ⟨Pc.header, cell, "", none, w⟩

/-- One statement of `main`; `none` once the program has returned.  `main`
is declared `int main()` and calls nothing but `printf` and `pow`: no
statement reads the arguments, the environment or standard input, and the
world is handed on unchanged. -/
def step (s : State) : Option State :=
  match s.pc with
  | Pc.header =>
    some ⟨Pc.brace, s.i, s.out ++ "const PROGMEM uint16_t TIMER_TABLE[4096]\n", s.status,
      s.world⟩
  | Pc.brace => some ⟨Pc.forInit, s.i, s.out ++ "\x7b", s.status, s.world⟩
  | Pc.forInit => some ⟨Pc.forTest, 0, s.out, s.status, s.world⟩
  | Pc.forTest =>
    if s.i < 4096 then some ⟨Pc.body, s.i, s.out, s.status, s.world⟩
    else some ⟨Pc.closing, s.i, s.out, s.status, s.world⟩
  | Pc.body => some ⟨Pc.forIncr, s.i, loopBody s.out s.i, s.status, s.world⟩
  | Pc.forIncr => some ⟨Pc.forTest, s.i + 1, s.out, s.status, s.world⟩
  | Pc.closing => some ⟨Pc.ret, s.i, s.out ++ "\x7d;\n", s.status, s.world⟩
  | Pc.ret => some ⟨Pc.halted, s.i, s.out, some 0, s.world⟩
  | Pc.halted => none

/-- A run of the machine: the state in which it has halted, or `none` when
the fuel does not reach the end. -/
def run : ℕ → State → Option State
  | 0, _ => none
  | fuel + 1, s =>
    match step s with
    | none => some s
    | some next => run fuel next

/-! ## Bridge between the two descriptions -/

theorem specFreq_pos (i : ℕ) : 0 < specFreq i := by
  unfold specFreq
  have h : (0 : ℝ) < (2.0 : ℝ) ^ specVolts i := Real.rpow_pos_of_pos (by norm_num) _
  positivity

theorem specQuotient_pos (i : ℕ) : 0 < specQuotient i := by
  unfold specQuotient
  exact div_pos (by norm_num) (specFreq_pos i)

theorem two_rpow_specVolts_pow (i : ℕ) :
    ((2.0 : ℝ) ^ specVolts i) ^ 4096 = (2 : ℝ) ^ (5 * i) := by
  have h2 : (0 : ℝ) ≤ 2.0 := by norm_num
  rw [← Real.rpow_natCast, ← Real.rpow_mul h2]
  have hv : specVolts i * ((4096 : ℕ) : ℝ) = ((5 * i : ℕ) : ℝ) := by
    unfold specVolts
    norm_num
  rw [hv, Real.rpow_natCast]
  norm_num

theorem cast_pow_le_iff (x y z e : ℕ) :
    x ^ e * 2 ^ y ≤ z ^ e ↔ (x : ℝ) ^ e * (2 : ℝ) ^ y ≤ (z : ℝ) ^ e := by
  constructor
  · intro h
    exact_mod_cast h
  · intro h
    exact_mod_cast h

/-- The integer test `atMostQuotient` decides `n ≤ 500000 / freq` over the
reals. -/
theorem atMostQuotient_iff (n i : ℕ) :
    atMostQuotient n i = true ↔ (n : ℝ) ≤ specQuotient i := by
  have hf := specFreq_pos i
  have hp : (0 : ℝ) < (2.0 : ℝ) ^ specVolts i := Real.rpow_pos_of_pos (by norm_num) _
  unfold specQuotient
  rw [le_div_iff₀ hf]
  have hscale : ((n : ℝ) * specFreq i) * 1000000000
      = ((n : ℝ) * 65406391325) * (2.0 : ℝ) ^ specVolts i := by
    unfold specFreq
    norm_num
    ring
  have hnn : (0 : ℝ) ≤ (n : ℝ) * specFreq i * 1000000000 := by positivity
  have key : (n : ℝ) * specFreq i ≤ 500000
      ↔ ((n : ℝ) * specFreq i * 1000000000) ^ 4096 ≤ ((500000 : ℝ) * 1000000000) ^ 4096 := by
    rw [pow_le_pow_iff_left₀ hnn (by norm_num) (by norm_num)]
    constructor
    · intro h
      exact mul_le_mul_of_nonneg_right h (by norm_num)
    · intro h
      exact le_of_mul_le_mul_right h (by norm_num)
  rw [key, hscale, mul_pow, two_rpow_specVolts_pow]
  unfold atMostQuotient
  rw [decide_eq_true_iff, cast_pow_le_iff]
  have h1 : ((n * 65406391325 : ℕ) : ℝ) = (n : ℝ) * 65406391325 := by push_cast; rfl
  have h2 : ((500000 * 1000000000 : ℕ) : ℝ) = (500000 : ℝ) * 1000000000 := by norm_num
  rw [h1, h2]

/-- Bisection returns a point where the test switches from true to false. -/
theorem searchFloor_switch (p : ℕ → Bool) :
    ∀ fuel lo hi : ℕ, lo < hi → hi - lo ≤ 2 ^ fuel → p lo = true → p hi = false →
      p (searchFloor p fuel lo hi) = true ∧ p (searchFloor p fuel lo hi + 1) = false := by
  intro fuel
  induction fuel with
  | zero =>
    intro lo hi hlt hw hlo hhi
    have hEq : hi = lo + 1 := by
      simp at hw
      omega
    subst hEq
    simp [searchFloor, hlo, hhi]
  | succ k ih =>
    intro lo hi hlt hw hlo hhi
    unfold searchFloor
    by_cases hclose : hi ≤ lo + 1
    · have hEq : hi = lo + 1 := by omega
      subst hEq
      simp [hlo, hhi]
    · rw [if_neg hclose]
      have hpow : 2 ^ (k + 1) = 2 * 2 ^ k := by ring
      rw [hpow] at hw
      by_cases hmid : p ((lo + hi) / 2) = true
      · rw [if_pos hmid]
        exact ih ((lo + hi) / 2) hi (by omega) (by omega) hmid hhi
      · rw [if_neg hmid]
        have hmid' : p ((lo + hi) / 2) = false := by simpa using hmid
        exact ih lo ((lo + hi) / 2) (by omega) (by omega) hlo hmid'

theorem one_le_two_rpow_specVolts (i : ℕ) : (1 : ℝ) ≤ (2.0 : ℝ) ^ specVolts i := by
  apply Real.one_le_rpow (by norm_num)
  unfold specVolts
  positivity

theorem specFreq_ge (i : ℕ) : (65.406391325 : ℝ) ≤ specFreq i := by
  unfold specFreq
  have h := one_le_two_rpow_specVolts i
  nlinarith

/-- The quotient stays below 7645 at every index. -/
theorem specQuotient_lt (i : ℕ) : specQuotient i < 7645 := by
  unfold specQuotient
  rw [div_lt_iff₀ (specFreq_pos i)]
  have h := specFreq_ge i
  norm_num at h ⊢
  linarith

/-- The search result is the integer part of the real quotient. -/
theorem floorQuotient_eq_floor (i : ℕ) : (floorQuotient i : ℤ) = ⌊specQuotient i⌋ := by
  have h0 : atMostQuotient 0 i = true := by
    rw [atMostQuotient_iff]
    exact_mod_cast (specQuotient_pos i).le
  have h1 : atMostQuotient 500001 i = false := by
    rw [← Bool.not_eq_true, atMostQuotient_iff]
    have h := specQuotient_lt i
    push_cast
    linarith
  have hs := searchFloor_switch (fun n => atMostQuotient n i) 19 0 500001
    (by norm_num) (by norm_num) h0 h1
  obtain ⟨hle, hgt⟩ := hs
  have hle' : ((floorQuotient i : ℕ) : ℝ) ≤ specQuotient i := (atMostQuotient_iff _ i).mp hle
  have hgt' : ¬ (((floorQuotient i + 1 : ℕ) : ℝ) ≤ specQuotient i) := by
    rw [← atMostQuotient_iff, Bool.not_eq_true]
    exact hgt
  symm
  rw [Int.floor_eq_iff]
  push_cast at hgt' ⊢
  exact ⟨hle', lt_of_not_le hgt'⟩

theorem floor_specQuotient_nonneg (i : ℕ) : 0 ≤ ⌊specQuotient i⌋ :=
  Int.floor_nonneg.mpr (specQuotient_pos i).le

theorem floor_specQuotient_lt (i : ℕ) : ⌊specQuotient i⌋ < 7645 := by
  rw [Int.floor_lt]
  exact_mod_cast specQuotient_lt i

/-- The cast to `uint16_t` does not wrap. -/
theorem timerValue_eq_floor (i : ℕ) : (timerValue i : ℤ) = ⌊specQuotient i⌋ := by
  have h := floorQuotient_eq_floor i
  have hlt := floor_specQuotient_lt i
  have hlt' : floorQuotient i < 2 ^ 16 := by
    have : (floorQuotient i : ℤ) < 7645 := by rw [h]; exact hlt
    have h2 : floorQuotient i < 7645 := by exact_mod_cast this
    omega
  unfold timerValue toUInt16
  rw [Nat.mod_eq_of_lt hlt']
  exact h

/-- Truncation toward zero is the floor on the quotient, which is positive. -/
theorem specValue_eq (i : ℕ) : specValue i = ⌊specQuotient i⌋ % 2 ^ 16 := by
  unfold specValue truncUInt16
  rw [if_pos (specQuotient_pos i).le]

theorem specValue_eq_floor (i : ℕ) : specValue i = ⌊specQuotient i⌋ := by
  rw [specValue_eq]
  apply Int.emod_eq_of_lt (floor_specQuotient_nonneg i)
  have h := floor_specQuotient_lt i
  omega

/-! ## The output text -/

theorem loopBody_eq (out : String) (i : ℕ) :
    loopBody out i
      = out ++ ((if i % 8 = 0 then "\n\t" else "") ++ Nat.repr (timerValue i) ++ ", ") := by
  unfold loopBody formatD
  by_cases h : i % 8 = 0
  · simp [h, String.append_assoc]
  · simp [h, String.append_assoc]

theorem foldl_loopBody (l : List ℕ) : ∀ out : String,
    l.foldl loopBody out
      = out ++ String.join (l.map fun i =>
          (if i % 8 = 0 then "\n\t" else "") ++ Nat.repr (timerValue i) ++ ", ") := by
  induction l with
  | nil =>
    intro out
    apply String.ext
    simp
  | cons a l ih =>
    intro out
    rw [List.foldl_cons, ih, loopBody_eq]
    apply String.ext
    simp

/-- Claim C7: the complete output of `main` is the header line, the opening
brace, then for each index from 0 to 4095 in increasing order a newline and
a tab when the index is divisible by 8, the decimal digits of the value, a
comma and one space, and finally the closing brace, a semicolon and a
newline. -/
theorem main_output_text :
    main.1 = "const PROGMEM uint16_t TIMER_TABLE[4096]\n" ++ "\x7b"
      ++ String.join ((List.range 4096).map fun i =>
          (if i % 8 = 0 then "\n\t" else "") ++ Nat.repr (timerValue i) ++ ", ")
      ++ "\x7d;\n" := by
  unfold main
  simp only [foldl_loopBody]

/-! ## Decimal numerals -/

theorem digitChar_isDigit : ∀ m, m < 10 → (Nat.digitChar m).isDigit = true := by decide

theorem digitChar_toNat : ∀ m, m < 10 → (Nat.digitChar m).toNat - '0'.toNat = m := by decide

theorem toDigitsCore_append (f : ℕ) : ∀ (n : ℕ) (ds : List Char),
    Nat.toDigitsCore 10 f n ds = Nat.toDigitsCore 10 f n [] ++ ds := by
  induction f with
  | zero => intro n ds; simp [Nat.toDigitsCore]
  | succ f ih =>
    intro n ds
    simp only [Nat.toDigitsCore]
    by_cases h : n / 10 = 0
    · simp [h]
    · simp only [h, if_false]
      rw [ih (n / 10) (Nat.digitChar (n % 10) :: ds), ih (n / 10) [Nat.digitChar (n % 10)]]
      simp

theorem toDigitsCore_isDigit (f : ℕ) : ∀ (n : ℕ),
    ∀ c ∈ Nat.toDigitsCore 10 f n [], c.isDigit = true := by
  induction f with
  | zero => intro n c hc; simp [Nat.toDigitsCore] at hc
  | succ f ih =>
    intro n c hc
    simp only [Nat.toDigitsCore] at hc
    have hd : (Nat.digitChar (n % 10)).isDigit = true :=
      digitChar_isDigit _ (Nat.mod_lt _ (by norm_num))
    by_cases h : n / 10 = 0
    · simp [h] at hc
      rw [hc]; exact hd
    · simp only [h, if_false] at hc
      rw [toDigitsCore_append] at hc
      rcases List.mem_append.mp hc with h1 | h1
      · exact ih _ c h1
      · simp at h1
        rw [h1]; exact hd

theorem toDigitsCore_ne_nil (f n : ℕ) : Nat.toDigitsCore 10 (f + 1) n [] ≠ [] := by
  simp only [Nat.toDigitsCore]
  by_cases h : n / 10 = 0
  · simp [h]
  · simp only [h, if_false]
    rw [toDigitsCore_append]
    simp

theorem decimalValue_append_singleton (ds : List Char) (c : Char) :
    decimalValue (ds ++ [c]) = 10 * decimalValue ds + (c.toNat - '0'.toNat) := by
  simp [decimalValue, List.foldl_append]

theorem decimalValue_toDigitsCore (f : ℕ) : ∀ n : ℕ, n < f →
    decimalValue (Nat.toDigitsCore 10 f n []) = n := by
  induction f with
  | zero => intro n hn; omega
  | succ f ih =>
    intro n hn
    simp only [Nat.toDigitsCore]
    by_cases h : n / 10 = 0
    · simp only [h, if_true]
      have hlt : n < 10 := by omega
      have : n % 10 = n := Nat.mod_eq_of_lt hlt
      rw [this]
      simp only [decimalValue, List.foldl]
      rw [digitChar_toNat n hlt]
      omega
    · simp only [h, if_false]
      rw [toDigitsCore_append, decimalValue_append_singleton, ih (n / 10) (by omega),
        digitChar_toNat _ (Nat.mod_lt _ (by norm_num))]
      omega

theorem repr_data (n : ℕ) : (Nat.repr n).data = Nat.toDigitsCore 10 (n + 1) n [] := by
  simp [Nat.repr, Nat.toDigits, List.asString]

theorem repr_isDigit (n : ℕ) : ∀ c ∈ (Nat.repr n).data, c.isDigit = true := by
  rw [repr_data]; exact toDigitsCore_isDigit _ _

theorem repr_ne_nil (n : ℕ) : (Nat.repr n).data ≠ [] := by
  rw [repr_data]; exact toDigitsCore_ne_nil _ _

theorem decimalValue_repr (n : ℕ) : decimalValue (Nat.repr n).data = n := by
  rw [repr_data]; exact decimalValue_toDigitsCore _ _ (by omega)

theorem isDigit_ne_comma {c : Char} (h : c.isDigit = true) : c ≠ ',' := by
  rintro rfl
  revert h
  decide

theorem isDigit_not_blank {c : Char} (h : c.isDigit = true) : isBlank c = false := by
  unfold isBlank
  unfold Char.isDigit at h
  have h1 : c ≠ ' ' := by rintro rfl; revert h; decide
  have h2 : c ≠ '\t' := by rintro rfl; revert h; decide
  have h3 : c ≠ '\n' := by rintro rfl; revert h; decide
  simp [h1, h2, h3]

theorem isDigit_ne_close {c : Char} (h : c.isDigit = true) : c ≠ '\x7d' := by
  rintro rfl
  revert h
  decide

theorem isDigit_ne_newline {c : Char} (h : c.isDigit = true) : c ≠ '\n' := by
  rintro rfl
  revert h
  decide

/-! ## The characters of the output -/

theorem entryData_eq (i : ℕ) :
    ((if i % 8 = 0 then "\n\t" else "") ++ Nat.repr (timerValue i) ++ ", ").data
      = entryData i := by
  unfold entryData
  by_cases h : i % 8 = 0
  · simp [h]
  · simp [h]

/-- The characters of the output: header line, opening brace, the entries
in index order, closing brace, semicolon, newline. -/
theorem main_data :
    main.1.data = "const PROGMEM uint16_t TIMER_TABLE[4096]\n".data
      ++ '\x7b' :: (((List.range 4096).map entryData).flatten ++ ['\x7d', ';', '\n']) := by
  unfold main
  simp only [foldl_loopBody, String.data_append, String.data_join, List.map_map]
  have hf : (String.data ∘ fun i =>
      (if i % 8 = 0 then "\n\t" else "") ++ Nat.repr (timerValue i) ++ ", ") = entryData := by
    funext i
    exact entryData_eq i
  rw [hf]
  simp

theorem entryData_mem {i : ℕ} {c : Char} (h : c ∈ entryData i) :
    c.isDigit = true ∨ c = '\n' ∨ c = '\t' ∨ c = ',' ∨ c = ' ' := by
  unfold entryData at h
  rcases List.mem_append.mp h with h1 | h1
  · rcases List.mem_append.mp h1 with h2 | h2
    · by_cases h8 : i % 8 = 0
      · simp [h8] at h2
        rcases h2 with h2 | h2
        · right; left; exact h2
        · right; right; left; exact h2
      · simp [h8] at h2
    · left
      exact repr_isDigit _ c h2
  · simp at h1
    rcases h1 with h1 | h1
    · right; right; right; left; exact h1
    · right; right; right; right; exact h1

theorem entries_mem {l : List ℕ} {c : Char} (h : c ∈ (l.map entryData).flatten) :
    c.isDigit = true ∨ c = '\n' ∨ c = '\t' ∨ c = ',' ∨ c = ' ' := by
  rw [List.mem_flatten] at h
  obtain ⟨e, he, hc⟩ := h
  rw [List.mem_map] at he
  obtain ⟨i, _, rfl⟩ := he
  exact entryData_mem hc

theorem entries_ne_close {l : List ℕ} {c : Char} (h : c ∈ (l.map entryData).flatten) :
    (c != '\x7d') = true := by
  rcases entries_mem h with h1 | h1 | h1 | h1 | h1
  · simpa using isDigit_ne_close h1
  all_goals (rw [h1]; decide)

theorem dropWhile_append_cons (p : Char → Bool) (l : List Char) (a : Char) (r : List Char)
    (hl : ∀ c ∈ l, p c = true) (ha : p a = false) :
    (l ++ a :: r).dropWhile p = a :: r := by
  induction l with
  | nil => simp [List.dropWhile, ha]
  | cons x l ih =>
    have hx : p x = true := hl x (List.mem_cons_self _ _)
    rw [List.cons_append, List.dropWhile_cons, if_pos hx]
    exact ih (fun c hc => hl c (List.mem_cons_of_mem _ hc))

theorem takeWhile_append_cons (p : Char → Bool) (l : List Char) (a : Char) (r : List Char)
    (hl : ∀ c ∈ l, p c = true) (ha : p a = false) :
    (l ++ a :: r).takeWhile p = l := by
  induction l with
  | nil => simp [List.takeWhile, ha]
  | cons x l ih =>
    have hx : p x = true := hl x (List.mem_cons_self _ _)
    rw [List.cons_append, List.takeWhile_cons, if_pos hx,
      ih (fun c hc => hl c (List.mem_cons_of_mem _ hc))]

/-- The text between the braces is the text written by the loop. -/
theorem betweenBraces_main :
    betweenBraces main.1.data = ((List.range 4096).map entryData).flatten := by
  rw [main_data]
  unfold betweenBraces
  rw [dropWhile_append_cons _ _ _ _ (by decide) (by decide)]
  simp only [List.drop_succ_cons, List.drop_zero]
  exact takeWhile_append_cons _ _ _ _ (fun c hc => entries_ne_close hc) (by decide)

theorem commaTokens_digits (ds : List Char) (hd : ∀ c ∈ ds, c.isDigit = true) :
    ∀ (tok rest : List Char),
      commaTokens tok (ds ++ rest) = commaTokens (ds.reverse ++ tok) rest := by
  induction ds with
  | nil => intro tok rest; simp
  | cons c ds ih =>
    intro tok rest
    have hc : c.isDigit = true := hd c (List.mem_cons_self _ _)
    have h1 := isDigit_ne_comma hc
    have h2 := isDigit_not_blank hc
    have h3 : ¬ (isBlank c = true) := by simp [h2]
    rw [List.cons_append, commaTokens, if_neg h1, if_neg h3,
      ih (fun x hx => hd x (List.mem_cons_of_mem _ hx))]
    simp

theorem commaTokens_entry (i : ℕ) (rest : List Char) :
    commaTokens [] (entryData i ++ rest)
      = (Nat.repr (timerValue i)).data :: commaTokens [] rest := by
  have hd := repr_isDigit (timerValue i)
  unfold entryData
  by_cases h8 : i % 8 = 0
  · simp only [h8, if_true, List.append_assoc, List.cons_append, List.nil_append]
    have hb1 : isBlank '\n' = true := by decide
    have hb2 : isBlank '\t' = true := by decide
    have hb3 : isBlank ' ' = true := by decide
    have hn1 : ¬ ('\n' = ',') := by decide
    have hn2 : ¬ ('\t' = ',') := by decide
    have hn3 : ¬ (' ' = ',') := by decide
    rw [commaTokens, if_neg hn1, if_pos hb1, commaTokens, if_neg hn2, if_pos hb2,
      commaTokens_digits _ hd, commaTokens, if_pos rfl]
    cases rest with
    | nil => simp [commaTokens, hb3]
    | cons r rs => simp [commaTokens, hb3]
  · simp only [h8, if_false, List.append_assoc, List.cons_append, List.nil_append]
    have hb3 : isBlank ' ' = true := by decide
    rw [commaTokens_digits _ hd, commaTokens, if_pos rfl]
    cases rest with
    | nil => simp [commaTokens, hb3]
    | cons r rs => simp [commaTokens, hb3]

theorem commaTokens_entries (l : List ℕ) (rest : List Char) :
    commaTokens [] ((l.map entryData).flatten ++ rest)
      = (l.map fun i => (Nat.repr (timerValue i)).data) ++ commaTokens [] rest := by
  induction l with
  | nil => simp
  | cons a l ih =>
    simp only [List.map_cons, List.flatten_cons, List.append_assoc, List.cons_append]
    rw [commaTokens_entry, ih]

theorem commaTokens_main :
    commaTokens [] (betweenBraces main.1.data)
      = (List.range 4096).map fun i => (Nat.repr (timerValue i)).data := by
  rw [betweenBraces_main]
  have h := commaTokens_entries (List.range 4096) []
  simp only [List.append_nil] at h
  rw [h]
  simp [commaTokens]

theorem range_split {i n : ℕ} (h : i < n) : ∃ l, List.range n = List.range i ++ i :: l := by
  obtain ⟨k, rfl⟩ : ∃ k, n = i + (k + 1) := ⟨n - i - 1, by omega⟩
  refine ⟨(List.range k).map fun x => i + Nat.succ x, ?_⟩
  rw [List.range_add, List.range_succ_eq_map]
  simp

theorem count_comma_repr (n : ℕ) : (Nat.repr n).data.count ',' = 0 := by
  apply List.count_eq_zero_of_not_mem
  intro h
  exact isDigit_ne_comma (repr_isDigit n _ h) rfl

theorem count_comma_entryData (i : ℕ) : (entryData i).count ',' = 1 := by
  unfold entryData
  rw [List.count_append, List.count_append, count_comma_repr]
  by_cases h8 : i % 8 = 0
  · simp [h8]
  · simp [h8]

theorem count_comma_entries (l : List ℕ) :
    ((l.map entryData).flatten).count ',' = l.length := by
  induction l with
  | nil => simp
  | cons a l ih =>
    simp only [List.map_cons, List.flatten_cons, List.count_append, List.length_cons]
    rw [ih, count_comma_entryData]
    omega

theorem suffix_pair_unique {a b c d : Char} {l : List Char}
    (h1 : [a, b] <:+ l) (h2 : [c, d] <:+ l) : [a, b] = [c, d] :=
  (List.suffix_of_suffix_length_le h1 h2 (by simp)).eq_of_length (by simp)

theorem entryData_suffix (i : ℕ) : [',', ' '] <:+ entryData i := by
  unfold entryData
  exact List.suffix_append _ _

/-- The text written before the digits of index `i`. -/
theorem text_before_value (i : ℕ) (hi : i < 4096) :
    ∃ post : List Char,
      main.1.data
        = ("const PROGMEM uint16_t TIMER_TABLE[4096]\n".data
            ++ '\x7b' :: (((List.range i).map entryData).flatten
            ++ (if i % 8 = 0 then ['\n', '\t'] else [])))
          ++ (Nat.repr (timerValue i)).data ++ ',' :: post := by
  obtain ⟨l, hl⟩ := range_split hi
  refine ⟨' ' :: ((l.map entryData).flatten ++ ['\x7d', ';', '\n']), ?_⟩
  rw [main_data, hl]
  simp [entryData, List.append_assoc]

/-! ## The lines of the output -/

theorem entryData_of_mod_zero {i : ℕ} (h : i % 8 = 0) :
    entryData i = '\n' :: '\t' :: ((Nat.repr (timerValue i)).data ++ [',', ' ']) := by
  unfold entryData
  simp [h]

theorem entryData_of_mod_ne {i : ℕ} (h : i % 8 ≠ 0) :
    entryData i = (Nat.repr (timerValue i)).data ++ [',', ' '] := by
  unfold entryData
  simp [h]

/-- Eight consecutive entries from a multiple of 8 are a newline and a row. -/
theorem entries_row (k : ℕ) :
    (((List.range 8).map fun j => 8 * k + j).map entryData).flatten = '\n' :: rowData k := by
  have h8 : List.range 8 = [0, 1, 2, 3, 4, 5, 6, 7] := by decide
  unfold rowData
  rw [h8]
  simp only [List.map_cons, List.map_nil, List.flatten_cons, List.flatten_nil]
  rw [entryData_of_mod_zero (by omega : (8 * k + 0) % 8 = 0),
    entryData_of_mod_ne (by omega : (8 * k + 1) % 8 ≠ 0),
    entryData_of_mod_ne (by omega : (8 * k + 2) % 8 ≠ 0),
    entryData_of_mod_ne (by omega : (8 * k + 3) % 8 ≠ 0),
    entryData_of_mod_ne (by omega : (8 * k + 4) % 8 ≠ 0),
    entryData_of_mod_ne (by omega : (8 * k + 5) % 8 ≠ 0),
    entryData_of_mod_ne (by omega : (8 * k + 6) % 8 ≠ 0),
    entryData_of_mod_ne (by omega : (8 * k + 7) % 8 ≠ 0)]
  simp

/-- The first `8 * n` entries are `n` rows, each after a newline. -/
theorem entries_rows (n : ℕ) :
    ((List.range (8 * n)).map entryData).flatten
      = ((List.range n).map fun k => '\n' :: rowData k).flatten := by
  induction n with
  | zero => simp
  | succ n ih =>
    have h : 8 * (n + 1) = 8 * n + 8 := by ring
    rw [h, List.range_add, List.map_append, List.flatten_append, ih, entries_row,
      List.range_succ, List.map_append, List.flatten_append]
    simp

theorem lines_regroup (rows : List (List Char)) : ∀ (p q : List Char),
    p ++ ((rows ++ [q]).map fun r => '\n' :: r).flatten
      = ((p :: rows).map fun r => r ++ ['\n']).flatten ++ q := by
  induction rows with
  | nil => intro p q; simp
  | cons r rows ih =>
    intro p q
    have h := ih r q
    simp only [List.cons_append, List.map_cons, List.flatten_cons, List.append_assoc] at h ⊢
    rw [← h]
    simp

theorem splitOn_lines (ls : List (List Char)) (hls : ∀ l ∈ ls, '\n' ∉ l) :
    List.splitOn '\n' ((ls.map fun r => r ++ ['\n']).flatten) = ls ++ [[]] := by
  induction ls with
  | nil => simp [List.splitOn_nil]
  | cons l ls ih =>
    have hl : ∀ x ∈ l, ¬ ((x == '\n') = true) := by
      intro x hx hxe
      have : x = '\n' := by simpa using hxe
      subst this
      exact hls l (List.mem_cons_self _ _) hx
    simp only [List.map_cons, List.flatten_cons, List.append_assoc, List.singleton_append,
      List.cons_append]
    unfold List.splitOn at ih ⊢
    rw [List.splitOnP_first _ l hl '\n' (by decide), List.nil_append,
      ih (fun x hx => hls x (List.mem_cons_of_mem _ hx))]

theorem rowData_no_newline (k : ℕ) : '\n' ∉ rowData k := by
  unfold rowData
  intro h
  rcases List.mem_cons.mp h with h | h
  · exact absurd h (by decide)
  · rw [List.mem_flatten] at h
    obtain ⟨e, he, hc⟩ := h
    rw [List.mem_map] at he
    obtain ⟨j, _, rfl⟩ := he
    rcases List.mem_append.mp hc with h1 | h1
    · exact isDigit_ne_newline (repr_isDigit _ _ h1) rfl
    · exact absurd h1 (by decide)

/-- The output as a sequence of newline-terminated lines. -/
theorem main_data_lines :
    main.1.data
      = (("const PROGMEM uint16_t TIMER_TABLE[4096]".data :: ['\x7b']
            :: ((List.range 511).map rowData ++ [rowData 511 ++ ['\x7d', ';']])).map
          fun r => r ++ ['\n']).flatten := by
  rw [main_data]
  have h4096 : 4096 = 8 * 512 := by norm_num
  have hrows : (List.range 512).map (fun k => '\n' :: rowData k)
      = ((List.range 511).map rowData ++ [rowData 511]).map fun r => '\n' :: r := by
    rw [List.range_succ]
    simp
  have hre := lines_regroup ((List.range 511).map rowData) ['\x7b'] (rowData 511)
  rw [h4096, entries_rows, hrows]
  simp only [List.singleton_append] at hre
  rw [← List.cons_append, hre]
  simp

theorem suffix_unique {l₁ l₂ l : List Char} (h1 : l₁ <:+ l) (h2 : l₂ <:+ l)
    (hlen : l₁.length = l₂.length) : l₁ = l₂ :=
  (List.suffix_of_suffix_length_le h1 h2 hlen.le).eq_of_length hlen

/-- The output ends with the space after the last comma, then the closing
brace, the semicolon and the newline. -/
theorem main_data_suffix : [' ', '\x7d', ';', '\n'] <:+ main.1.data := by
  have hr : List.range 4096 = List.range 4095 ++ [4095] := List.range_succ 4095
  obtain ⟨t, ht⟩ := entryData_suffix 4095
  rw [main_data, hr, List.map_append, List.flatten_append]
  simp only [List.map_cons, List.map_nil, List.flatten_cons, List.flatten_nil, List.append_nil]
  rw [← ht]
  refine ⟨"const PROGMEM uint16_t TIMER_TABLE[4096]\n".data
      ++ '\x7b' :: (((List.range 4095).map entryData).flatten ++ (t ++ [','])), ?_⟩
  simp only [List.append_assoc, List.cons_append, List.nil_append]

/-- The lines of the output, split at newlines: the header, the opening
brace, 511 rows, the last row with the closing brace and the semicolon, and
the empty text after the final newline. -/
theorem splitOn_main :
    main.1.data.splitOn '\n'
      = "const PROGMEM uint16_t TIMER_TABLE[4096]".data :: ['\x7b']
          :: ((List.range 511).map rowData ++ [rowData 511 ++ ['\x7d', ';'], []]) := by
  rw [main_data_lines, splitOn_lines]
  · simp
  · intro l hl
    simp only [List.mem_append, List.mem_cons, List.mem_map, List.mem_singleton,
      List.not_mem_nil, or_false] at hl
    rcases hl with rfl | rfl | ⟨k, _, rfl⟩ | rfl
    · decide
    · decide
    · exact rowData_no_newline k
    · intro hmem
      rcases List.mem_append.mp hmem with h1 | h1
      · exact rowData_no_newline 511 h1
      · exact absurd h1 (by decide)

/-! ## Runs of the machine -/

theorem run_mono (fuel : ℕ) : ∀ (s r : State) (k : ℕ),
    run fuel s = some r → run (fuel + k) s = some r := by
  induction fuel with
  | zero =>
    intro s r k h
    simp [run] at h
  | succ n ih =>
    intro s r k h
    have hk : n + 1 + k = (n + k) + 1 := by omega
    rw [hk]
    rw [run] at h ⊢
    cases hs : step s with
    | none =>
      rw [hs] at h
      simpa using h
    | some next =>
      rw [hs] at h
      simp only at h ⊢
      exact ih next r k h

/-- Two runs from the same state halt in the same state. -/
theorem run_unique {f₁ f₂ : ℕ} {s r₁ r₂ : State}
    (h₁ : run f₁ s = some r₁) (h₂ : run f₂ s = some r₂) : r₁ = r₂ := by
  have e₁ := run_mono f₁ s r₁ f₂ h₁
  have e₂ := run_mono f₂ s r₂ f₁ h₂
  rw [Nat.add_comm] at e₂
  rw [e₁] at e₂
  exact Option.some.inj e₂

/-- The remaining `k` iterations of the loop take three steps each. -/
theorem run_loop (w : World) (k : ℕ) :
    ∀ (i : ℕ) (out : String) (st : Option ℤ) (fuel : ℕ),
    i + k = 4096 →
      run (fuel + 3 * k) ⟨Pc.forTest, i, out, st, w⟩
        = run fuel ⟨Pc.forTest, 4096, (List.range' i k).foldl loopBody out, st, w⟩ := by
  induction k with
  | zero =>
    intro i out st fuel h
    have hi : i = 4096 := by omega
    subst hi
    simp
  | succ k ih =>
    intro i out st fuel h
    have hlt : i < 4096 := by omega
    have hf : fuel + 3 * (k + 1) = (fuel + 3 * k) + 1 + 1 + 1 := by omega
    rw [hf, run]
    simp only [step, hlt, if_true]
    rw [run]
    simp only [step]
    rw [run]
    simp only [step]
    rw [ih (i + 1) (loopBody out i) st fuel (by omega)]
    simp [List.range'_succ]

/-- The three statements before the first loop test: whatever the cell of
`i` held at the start, the loop starts from 0. -/
theorem run_head (w : World) (cell fuel : ℕ) :
    run (fuel + 3) (start w cell)
      = run fuel ⟨Pc.forTest, 0,
          "" ++ "const PROGMEM uint16_t TIMER_TABLE[4096]\n" ++ "\x7b", none, w⟩ := by
  have hf : fuel + 3 = fuel + 1 + 1 + 1 := by omega
  rw [hf]
  unfold start
  rw [run]
  simp only [step]
  rw [run]
  simp only [step]
  rw [run]
  simp only [step]

/-- The failing loop test, the closing `printf` and the `return`. -/
theorem run_tail (w : World) (out : String) (st : Option ℤ) (fuel : ℕ) :
    run (fuel + 4) ⟨Pc.forTest, 4096, out, st, w⟩
      = some ⟨Pc.halted, 4096, out ++ "\x7d;\n", some 0, w⟩ := by
  have hf : fuel + 4 = fuel + 1 + 1 + 1 + 1 := by omega
  rw [hf, run]
  simp only [step, lt_irrefl, if_false]
  rw [run]
  simp only [step]
  rw [run]
  simp only [step]
  rw [run]
  simp only [step]

/-- With enough fuel the machine halts, in any world and from any content
of the cell of `i`, having written the output of `main` and returned 0. -/
theorem run_start (w : World) (cell fuel : ℕ) :
    run (fuel + 12295) (start w cell) = some ⟨Pc.halted, 4096, main.1, some 0, w⟩ := by
  have hf : fuel + 12295 = (fuel + 4 + 3 * 4096) + 3 := by omega
  rw [hf, run_head, run_loop w 4096 0 _ none _ (by norm_num), run_tail]
  have hm : main.1 = (List.range' 0 4096).foldl loopBody
      ("" ++ "const PROGMEM uint16_t TIMER_TABLE[4096]\n" ++ "\x7b") ++ "\x7d;\n" := by
    unfold main
    rw [List.range_eq_range']
    rfl
  rw [hm]

/-! ## Monotonicity and concrete entries -/

theorem specVolts_lt {i j : ℕ} (h : i < j) : specVolts i < specVolts j := by
  unfold specVolts
  have h' : ((5 * i : ℕ) : ℝ) < ((5 * j : ℕ) : ℝ) := by
    exact_mod_cast (by omega : 5 * i < 5 * j)
  have h4 : (0 : ℝ) < 4096.0 := by norm_num
  exact div_lt_div_of_pos_right h' h4

/-- The frequency grows strictly with the index. -/
theorem specFreq_lt {i j : ℕ} (h : i < j) : specFreq i < specFreq j := by
  unfold specFreq
  have h2 : (1 : ℝ) < 2.0 := by norm_num
  have hr : (2.0 : ℝ) ^ specVolts i < (2.0 : ℝ) ^ specVolts j :=
    (Real.rpow_lt_rpow_left_iff h2).mpr (specVolts_lt h)
  have hc : (0 : ℝ) < 65.406391325 := by norm_num
  exact mul_lt_mul_of_pos_left hr hc

theorem specFreq_le {i j : ℕ} (h : i ≤ j) : specFreq i ≤ specFreq j := by
  rcases Nat.lt_or_eq_of_le h with h' | h'
  · exact (specFreq_lt h').le
  · rw [h']

/-- The quotient, and with it the entry, does not grow with the index. -/
theorem specQuotient_anti {i j : ℕ} (h : i ≤ j) : specQuotient j ≤ specQuotient i := by
  unfold specQuotient
  exact div_le_div_of_nonneg_left (by norm_num) (specFreq_pos i) (specFreq_le h)

theorem timerValue_anti {i j : ℕ} (h : i ≤ j) : timerValue j ≤ timerValue i := by
  have hz : (timerValue j : ℤ) ≤ (timerValue i : ℤ) := by
    rw [timerValue_eq_floor, timerValue_eq_floor]
    exact Int.floor_le_floor (specQuotient_anti h)
  exact_mod_cast hz

theorem specQuotient_zero : specQuotient 0 = 500000 / 65.406391325 := by
  unfold specQuotient specFreq specVolts
  norm_num

theorem floor_specQuotient_zero : ⌊specQuotient 0⌋ = 7644 := by
  rw [Int.floor_eq_iff, specQuotient_zero]
  constructor
  · rw [le_div_iff₀ (by norm_num)]
    norm_num
  · rw [div_lt_iff₀ (by norm_num)]
    norm_num

theorem timerValue_zero : timerValue 0 = 7644 := by
  have h : (timerValue 0 : ℤ) = 7644 := by
    rw [timerValue_eq_floor, floor_specQuotient_zero]
  exact_mod_cast h

theorem specRounded_zero : specRounded 0 = 7645 := by
  unfold specRounded
  rw [round_eq, Int.floor_eq_iff, specQuotient_zero]
  constructor
  · have h : (7644.5 : ℝ) ≤ 500000 / 65.406391325 := by
      rw [le_div_iff₀ (by norm_num)]
      norm_num
    push_cast
    linarith
  · have h : (500000 : ℝ) / 65.406391325 < 7645 := by
      rw [div_lt_iff₀ (by norm_num)]
      norm_num
    push_cast
    linarith

/-- At index 2048 the exponent is `5 / 2`: the power of two squares to 32. -/
theorem two_rpow_specVolts_2048_sq : ((2.0 : ℝ) ^ specVolts 2048) ^ 2 = 32 := by
  have h2 : (0 : ℝ) ≤ 2.0 := by norm_num
  rw [← Real.rpow_natCast, ← Real.rpow_mul h2]
  have hv : specVolts 2048 * ((2 : ℕ) : ℝ) = ((5 : ℕ) : ℝ) := by
    unfold specVolts
    norm_num
  rw [hv, Real.rpow_natCast]
  norm_num

theorem specQuotient_2048_bounds :
    (1351 : ℝ) < specQuotient 2048 ∧ specQuotient 2048 < 1351.5 := by
  have hsq := two_rpow_specVolts_2048_sq
  have hpos : (0 : ℝ) < (2.0 : ℝ) ^ specVolts 2048 := Real.rpow_pos_of_pos (by norm_num) _
  have hlo : (5.6568 : ℝ) < (2.0 : ℝ) ^ specVolts 2048 := by
    by_contra hcon
    push_neg at hcon
    nlinarith
  have hhi : (2.0 : ℝ) ^ specVolts 2048 < 5.657 := by
    by_contra hcon
    push_neg at hcon
    nlinarith
  unfold specQuotient
  have hf : specFreq 2048 = 65.406391325 * (2.0 : ℝ) ^ specVolts 2048 := rfl
  constructor
  · rw [lt_div_iff₀ (specFreq_pos 2048), hf]
    nlinarith
  · rw [div_lt_iff₀ (specFreq_pos 2048), hf]
    nlinarith

theorem timerValue_2048 : timerValue 2048 = 1351 := by
  have hb := specQuotient_2048_bounds
  have h : (timerValue 2048 : ℤ) = 1351 := by
    rw [timerValue_eq_floor, Int.floor_eq_iff]
    push_cast
    constructor
    · linarith [hb.1]
    · linarith [hb.2]
  exact_mod_cast h

theorem specRounded_2048 : specRounded 2048 = 1351 := by
  have hb := specQuotient_2048_bounds
  unfold specRounded
  rw [round_eq, Int.floor_eq_iff]
  push_cast
  constructor
  · linarith [hb.1]
  · linarith [hb.2]

/-- Rounding to nearest is the floor when the fractional part is below one
half and the floor plus one otherwise. -/
theorem round_eq_floor_or (x : ℝ) :
    (Int.fract x < 1 / 2 ∧ round x = ⌊x⌋) ∨ (1 / 2 ≤ Int.fract x ∧ round x = ⌊x⌋ + 1) := by
  have hx := Int.floor_add_fract x
  have h0 := Int.fract_nonneg x
  have h1 := Int.fract_lt_one x
  rcases lt_or_le (Int.fract x) (1 / 2) with h | h
  · left
    refine ⟨h, ?_⟩
    rw [round_eq, Int.floor_eq_iff]
    constructor <;> linarith
  · right
    refine ⟨h, ?_⟩
    rw [round_eq, Int.floor_eq_iff]
    push_cast
    constructor <;> linarith

/-! ## Range of the voltage and of the entries -/

theorem specVolts_eq (i : ℕ) : specVolts i = 5 * (i : ℝ) / 4096 := by
  unfold specVolts
  norm_num

theorem specVolts_lt_five {i : ℕ} (h : i < 4096) : specVolts i < 5 := by
  rw [specVolts_eq, div_lt_iff₀ (by norm_num)]
  have hi : (i : ℝ) < 4096 := by exact_mod_cast h
  linarith

theorem two_rpow_five : (2.0 : ℝ) ^ (5 : ℝ) = 32 := by
  have h5 : (5 : ℝ) = ((5 : ℕ) : ℝ) := by norm_num
  rw [h5, Real.rpow_natCast]
  norm_num

/-- Below index 4096 the quotient stays above 238. -/
theorem specQuotient_gt {i : ℕ} (h : i < 4096) : 238 < specQuotient i := by
  have h2 : (1 : ℝ) < 2.0 := by norm_num
  have hr : (2.0 : ℝ) ^ specVolts i < 32 := by
    rw [← two_rpow_five]
    exact (Real.rpow_lt_rpow_left_iff h2).mpr (specVolts_lt_five h)
  unfold specQuotient
  rw [lt_div_iff₀ (specFreq_pos i)]
  unfold specFreq
  nlinarith

theorem timerValue_ge {i : ℕ} (h : i < 4096) : 238 ≤ timerValue i := by
  have hz : (238 : ℤ) ≤ (timerValue i : ℤ) := by
    rw [timerValue_eq_floor, Int.le_floor]
    push_cast
    exact (specQuotient_gt h).le
  exact_mod_cast hz

theorem timerValue_le (i : ℕ) : timerValue i ≤ 7644 := by
  have h := timerValue_anti (Nat.zero_le i)
  rw [timerValue_zero] at h
  exact h

theorem toDigitsCore_small (f n : ℕ) (ds : List Char) (h : n < 10) :
    Nat.toDigitsCore 10 (f + 1) n ds = Nat.digitChar (n % 10) :: ds := by
  have h0 : n / 10 = 0 := by omega
  simp only [Nat.toDigitsCore, h0, if_true]

theorem toDigitsCore_large (f n : ℕ) (ds : List Char) (h : 10 ≤ n) :
    Nat.toDigitsCore 10 (f + 1) n ds
      = Nat.toDigitsCore 10 f (n / 10) (Nat.digitChar (n % 10) :: ds) := by
  have h0 : ¬ (n / 10 = 0) := by omega
  simp only [Nat.toDigitsCore, h0, if_false]

theorem repr_length_three {n : ℕ} (h1 : 100 ≤ n) (h2 : n < 1000) :
    (Nat.repr n).length = 3 := by
  obtain ⟨m, rfl⟩ : ∃ m, n = m + 2 := ⟨n - 2, by omega⟩
  show (Nat.repr (m + 2)).data.length = 3
  rw [repr_data]
  rw [toDigitsCore_large _ _ _ (by omega), toDigitsCore_large _ _ _ (by omega),
    toDigitsCore_small _ _ _ (by omega)]
  rfl

theorem repr_length_four {n : ℕ} (h1 : 1000 ≤ n) (h2 : n < 10000) :
    (Nat.repr n).length = 4 := by
  obtain ⟨m, rfl⟩ : ∃ m, n = m + 3 := ⟨n - 3, by omega⟩
  show (Nat.repr (m + 3)).data.length = 4
  rw [repr_data]
  rw [toDigitsCore_large _ _ _ (by omega), toDigitsCore_large _ _ _ (by omega),
    toDigitsCore_large _ _ _ (by omega), toDigitsCore_small _ _ _ (by omega)]
  rfl

/-! ## Separators and rows -/

theorem countNewlineTab_cons_ne {c : Char} (rest : List Char) (h : c ≠ '\n') :
    countNewlineTab (c :: rest) = countNewlineTab rest := by
  rw [countNewlineTab]
  have hn : ¬ (c = '\n' ∧ rest.head? = some '\t') := fun hc => h hc.1
  rw [if_neg hn, Nat.zero_add]

theorem countNewlineTab_append (ds : List Char) (hd : '\n' ∉ ds) (rest : List Char) :
    countNewlineTab (ds ++ rest) = countNewlineTab rest := by
  induction ds with
  | nil => rfl
  | cons c ds ih =>
    have hc : c ≠ '\n' := by
      intro h
      exact hd (h ▸ List.mem_cons_self _ _)
    rw [List.cons_append, countNewlineTab_cons_ne _ hc]
    exact ih (fun h => hd (List.mem_cons_of_mem _ h))

/-- A newline followed by a row holds exactly one separator. -/
theorem countNewlineTab_row (k : ℕ) (rest : List Char) :
    countNewlineTab (('\n' :: rowData k) ++ rest) = 1 + countNewlineTab rest := by
  have hrow := countNewlineTab_append (rowData k) (rowData_no_newline k) rest
  have hhead : (rowData k ++ rest).head? = some '\t' := by
    unfold rowData
    rfl
  rw [List.cons_append, countNewlineTab, if_pos ⟨rfl, hhead⟩, hrow]

theorem countNewlineTab_rows (l : List ℕ) (rest : List Char) :
    countNewlineTab ((l.map fun k => '\n' :: rowData k).flatten ++ rest)
      = l.length + countNewlineTab rest := by
  induction l with
  | nil => simp
  | cons k l ih =>
    simp only [List.map_cons, List.flatten_cons, List.length_cons]
    rw [List.append_assoc, countNewlineTab_row, ih]
    omega

/-- The output holds 512 separators. -/
theorem countNewlineTab_main : countNewlineTab main.1.data = 512 := by
  have h4096 : 4096 = 8 * 512 := by norm_num
  have hhdr : "const PROGMEM uint16_t TIMER_TABLE[4096]\n".data
      = "const PROGMEM uint16_t TIMER_TABLE[4096]".data ++ ['\n'] := by decide
  have hno : '\n' ∉ "const PROGMEM uint16_t TIMER_TABLE[4096]".data := by decide
  rw [main_data, h4096, entries_rows, hhdr, List.append_assoc,
    countNewlineTab_append _ hno, List.singleton_append, countNewlineTab,
    if_neg (by decide), countNewlineTab_cons_ne _ (by decide), countNewlineTab_rows]
  simp [countNewlineTab]

/-- The tokens of a row are the eight values from index `8 * k`. -/
theorem commaTokens_row (k : ℕ) (rest : List Char) :
    commaTokens [] (rowData k ++ rest)
      = ((List.range 8).map fun j => (Nat.repr (timerValue (8 * k + j))).data)
        ++ commaTokens [] rest := by
  have h := commaTokens_entries ((List.range 8).map fun j => 8 * k + j) rest
  rw [entries_row, List.cons_append, commaTokens, if_neg (by decide), if_pos (by decide),
    List.map_map] at h
  rw [h]
  rfl

/-- The value lines of the output: line `k + 2` is row `k`, the last one
carrying the closing brace and the semicolon. -/
theorem value_line (k : ℕ) (hk : k < 512) :
    (main.1.data.splitOn '\n')[k + 2]?
      = some (rowData k ++ (if k = 511 then ['\x7d', ';'] else [])) := by
  rw [splitOn_main, List.getElem?_cons_succ, List.getElem?_cons_succ]
  rcases Nat.lt_or_ge k 511 with h | h
  · have hne : k ≠ 511 := by omega
    rw [if_neg hne, List.append_nil, List.getElem?_append_left (by simpa using h),
      List.getElem?_map, List.getElem?_range h]
    rfl
  · have he : k = 511 := by omega
    subst he
    rw [if_pos rfl, List.getElem?_append_right (by simp)]
    simp

/-! ## The table entries: claims -/

theorem specQuotient_unfold (i : ℕ) :
    specQuotient i
      = (500000 : ℝ) / (65.406391325 * (2 : ℝ) ^ (((5 * i : ℕ) : ℝ) / 4096)) := by
  unfold specQuotient specFreq specVolts
  norm_num

/-- Claim C1: for every index `i` below 4096 the value emitted at position
`i` is the floor of `500000 / (65.406391325 * 2 ^ ((5 * i) / 4096))`, the
arithmetic read over the reals, reduced modulo `2 ^ 16`; it is also the
truncating conversion `specValue` of that quotient. -/
theorem emitted_value_formula (i : ℕ) (hi : i < 4096) :
    (timerValue i : ℤ)
        = ⌊(500000 : ℝ) / (65.406391325 * (2 : ℝ) ^ (((5 * i : ℕ) : ℝ) / 4096))⌋ % 2 ^ 16
      ∧ (timerValue i : ℤ) = specValue i := by
  have _ := hi
  rw [← specQuotient_unfold, ← specValue_eq, specValue_eq_floor, timerValue_eq_floor]
  exact ⟨rfl, rfl⟩

theorem emitted_value_formula_witness :
    (timerValue 4095 : ℤ)
        = ⌊(500000 : ℝ) / (65.406391325 * (2 : ℝ) ^ (((5 * 4095 : ℕ) : ℝ) / 4096))⌋ % 2 ^ 16
      ∧ (timerValue 4095 : ℤ) = specValue 4095 :=
  emitted_value_formula 4095 (by decide)

/-- Claim C2, as stated, fails: the value emitted for index 0 is not 7639. -/
theorem index_zero_ne_7639 : ¬ (timerValue 0 = 7639) := by
  rw [timerValue_zero]
  decide

/-- Claim C2, amended: the value emitted for index 0 is 7644, the integer
part of `500000 / 65.406391325`. -/
theorem index_zero_value :
    timerValue 0 = 7644 ∧ ⌊(500000 : ℝ) / 65.406391325⌋ = 7644 := by
  refine ⟨timerValue_zero, ?_⟩
  rw [← specQuotient_zero]
  exact floor_specQuotient_zero

/-- Claim C4: for every index below 4096 the integer part of the quotient is
at least 0 and below 65536, so the conversion to `uint16_t` wraps nothing:
the emitted value is the floor itself. -/
theorem quotient_fits_uint16 (i : ℕ) (hi : i < 4096) :
    0 ≤ ⌊specQuotient i⌋ ∧ ⌊specQuotient i⌋ < 65536
      ∧ (timerValue i : ℤ) = ⌊specQuotient i⌋
      ∧ toUInt16 (floorQuotient i) = floorQuotient i := by
  have _ := hi
  have hlt := floor_specQuotient_lt i
  refine ⟨floor_specQuotient_nonneg i, by omega, timerValue_eq_floor i, ?_⟩
  have h1 := timerValue_eq_floor i
  have h2 := floorQuotient_eq_floor i
  have h3 : (timerValue i : ℤ) = (floorQuotient i : ℤ) := by rw [h1, h2]
  have h4 : timerValue i = floorQuotient i := by exact_mod_cast h3
  exact h4

theorem quotient_fits_uint16_witness :
    0 ≤ ⌊specQuotient 0⌋ ∧ ⌊specQuotient 0⌋ < 65536
      ∧ (timerValue 0 : ℤ) = ⌊specQuotient 0⌋
      ∧ toUInt16 (floorQuotient 0) = floorQuotient 0 :=
  quotient_fits_uint16 0 (by decide)

/-- Claim C6: the value emitted for index 4095 is the smallest of the table
and index 4095 has the highest frequency: for every index `i` below 4096,
`timerValue 4095 ≤ timerValue i` and `specFreq i ≤ specFreq 4095`, strictly
so for `i` other than 4095. -/
theorem last_entry_smallest (i : ℕ) (hi : i < 4096) :
    timerValue 4095 ≤ timerValue i ∧ specFreq i ≤ specFreq 4095
      ∧ (i ≠ 4095 → specFreq i < specFreq 4095) := by
  have hle : i ≤ 4095 := by omega
  refine ⟨timerValue_anti hle, specFreq_le hle, ?_⟩
  intro hne
  exact specFreq_lt (by omega)

theorem last_entry_smallest_witness :
    timerValue 4095 ≤ timerValue 0 ∧ specFreq 0 ≤ specFreq 4095
      ∧ (0 ≠ 4095 → specFreq 0 < specFreq 4095) :=
  last_entry_smallest 0 (by decide)

/-- Claim C10, as stated, fails at index 2048: the nearest integer to the
quotient and the emitted value are both 1351. -/
theorem rounding_keeps_index_2048 :
    2048 < 4096 ∧ specRounded 2048 = 1351 ∧ timerValue 2048 = 1351
      ∧ ¬ (specRounded 2048 ≠ (timerValue 2048 : ℤ)) := by
  refine ⟨by decide, specRounded_2048, timerValue_2048, ?_⟩
  rw [specRounded_2048, timerValue_2048]
  simp

/-- Claim C10, amended: rounding to nearest changes the emitted value of an
index below 4096 exactly when the fractional part of the quotient is at
least one half, and then by one; it does so at index 0, where the nearest
integer is 7645 and the emitted value 7644. -/
theorem rounding_changes_iff (i : ℕ) (hi : i < 4096) :
    (specRounded i ≠ (timerValue i : ℤ) ↔ 1 / 2 ≤ Int.fract (specQuotient i))
      ∧ (specRounded i = (timerValue i : ℤ) ∨ specRounded i = (timerValue i : ℤ) + 1)
      ∧ specRounded 0 = 7645 ∧ timerValue 0 = 7644 := by
  have _ := hi
  refine ⟨?_, ?_, specRounded_zero, timerValue_zero⟩
  · rw [timerValue_eq_floor]
    unfold specRounded
    rcases round_eq_floor_or (specQuotient i) with ⟨hf, hr⟩ | ⟨hf, hr⟩
    · rw [hr]
      constructor
      · intro h
        exact absurd rfl h
      · intro h
        linarith
    · rw [hr]
      constructor
      · intro _
        exact hf
      · intro _
        omega
  · rw [timerValue_eq_floor]
    unfold specRounded
    rcases round_eq_floor_or (specQuotient i) with ⟨_, hr⟩ | ⟨_, hr⟩
    · left; exact hr
    · right; exact hr

theorem rounding_changes_iff_witness :
    (specRounded 0 ≠ (timerValue 0 : ℤ) ↔ 1 / 2 ≤ Int.fract (specQuotient 0))
      ∧ (specRounded 0 = (timerValue 0 : ℤ) ∨ specRounded 0 = (timerValue 0 : ℤ) + 1)
      ∧ specRounded 0 = 7645 ∧ timerValue 0 = 7644 :=
  rounding_changes_iff 0 (by decide)

/-! ## The output text: claims -/

/-- Claim C3: between the opening and the closing brace the output holds
exactly 4096 comma-terminated tokens; the token at position `i` is the
decimal numeral of the value for index `i`: non-empty, digits only, and
denoting that value. -/
theorem output_tokens (i : ℕ) (hi : i < 4096) :
    (commaTokens [] (betweenBraces main.1.data)).length = 4096
      ∧ (commaTokens [] (betweenBraces main.1.data))[i]?
          = some (Nat.repr (timerValue i)).data
      ∧ (Nat.repr (timerValue i)).data ≠ []
      ∧ (Nat.repr (timerValue i)).data.all Char.isDigit = true
      ∧ decimalValue (Nat.repr (timerValue i)).data = timerValue i := by
  rw [commaTokens_main]
  refine ⟨by simp, ?_, repr_ne_nil _, ?_, decimalValue_repr _⟩
  · rw [List.getElem?_map, List.getElem?_range hi]
    rfl
  · rw [List.all_eq_true]
    exact repr_isDigit _

theorem output_tokens_witness :
    (commaTokens [] (betweenBraces main.1.data)).length = 4096
      ∧ (commaTokens [] (betweenBraces main.1.data))[4095]?
          = some (Nat.repr (timerValue 4095)).data
      ∧ (Nat.repr (timerValue 4095)).data ≠ []
      ∧ (Nat.repr (timerValue 4095)).data.all Char.isDigit = true
      ∧ decimalValue (Nat.repr (timerValue 4095)).data = timerValue 4095 :=
  output_tokens 4095 (by decide)

/-- Claim C5: the output splits at the digits of the value of any index `i`
below 4096 into the text before, the digits, and a rest starting with the
comma; the text before holds exactly `i` commas, it ends with a newline and
a tab if and only if `i` is divisible by 8, and for any other index it ends
with the comma and the space of the previous value. -/
theorem separator_before_value (i : ℕ) (hi : i < 4096) :
    ∃ pre post : List Char,
      main.1.data = pre ++ (Nat.repr (timerValue i)).data ++ ',' :: post
        ∧ pre.count ',' = i
        ∧ (['\n', '\t'] <:+ pre ↔ i % 8 = 0)
        ∧ (i % 8 = 0 ∨ [',', ' '] <:+ pre) := by
  obtain ⟨post, hpost⟩ := text_before_value i hi
  have h0 : "const PROGMEM uint16_t TIMER_TABLE[4096]\n".data.count ',' = 0 := by decide
  generalize "const PROGMEM uint16_t TIMER_TABLE[4096]\n".data = hdr at hpost h0
  refine ⟨_, post, hpost, ?_, ?_⟩
  · rw [List.count_append, h0, List.count_cons, List.count_append, count_comma_entries]
    by_cases h8 : i % 8 = 0
    · simp [h8]
    · simp [h8]
  · by_cases h8 : i % 8 = 0
    · simp only [h8, if_true, true_or, and_true, iff_true]
      rw [← List.cons_append, ← List.append_assoc]
      exact List.suffix_append _ _
    · obtain ⟨j, rfl⟩ : ∃ j, i = j + 1 := ⟨i - 1, by
        have : i ≠ 0 := by
          rintro rfl
          simp at h8
        omega⟩
      have hsuf : [',', ' '] <:+ hdr
          ++ '\x7b' :: (((List.range (j + 1)).map entryData).flatten
            ++ (if (j + 1) % 8 = 0 then ['\n', '\t'] else [])) := by
        rw [if_neg h8, List.append_nil, List.range_succ, List.map_append, List.flatten_append]
        simp only [List.map_cons, List.map_nil, List.flatten_cons, List.flatten_nil,
          List.append_nil]
        rw [← List.cons_append, ← List.append_assoc]
        exact (entryData_suffix j).trans (List.suffix_append _ _)
      refine ⟨?_, Or.inr hsuf⟩
      constructor
      · intro h
        exact absurd (suffix_pair_unique h hsuf) (by decide)
      · intro h
        exact absurd h h8

theorem separator_before_value_witness :
    ∃ pre post : List Char,
      main.1.data = pre ++ (Nat.repr (timerValue 8)).data ++ ',' :: post
        ∧ pre.count ',' = 8
        ∧ (['\n', '\t'] <:+ pre ↔ 8 % 8 = 0)
        ∧ (8 % 8 = 0 ∨ [',', ' '] <:+ pre) :=
  separator_before_value 8 (by decide)

/-- Claim C8, as stated, fails: the closing brace does not stand on a line
of its own; the output ends with a space, the brace, the semicolon and the
newline, the space being the one after the last comma, and not with a
newline before the brace. -/
theorem closing_brace_not_on_own_line :
    [' ', '\x7d', ';', '\n'] <:+ main.1.data
      ∧ ¬ (['\n', '\x7d', ';', '\n'] <:+ main.1.data)
      ∧ "\x7d;".data ∉ main.1.data.splitOn '\n' := by
  refine ⟨main_data_suffix, ?_, ?_⟩
  · intro h
    exact absurd (suffix_unique h main_data_suffix rfl) (by decide)
  · rw [splitOn_main]
    intro h
    simp only [List.mem_append, List.mem_cons, List.mem_map, List.mem_singleton,
      List.not_mem_nil, or_false] at h
    rcases h with h | h | ⟨k, _, hk⟩ | hk | h
    · exact absurd h (by decide)
    · exact absurd h (by decide)
    · unfold rowData at hk
      exact absurd hk (by simp)
    · unfold rowData at hk
      exact absurd hk (by simp)
    · exact absurd h (by decide)

/-- Claim C8, amended: the first line of the output is exactly
`const PROGMEM uint16_t TIMER_TABLE[4096]`, the second line is exactly the
opening brace, 512 lines of values follow, each starting with a tab, and the
closing brace with its semicolon ends the last of them, after the comma and
the space of the value of index 4095; the final newline follows. -/
theorem output_lines :
    main.1.data.splitOn '\n'
        = "const PROGMEM uint16_t TIMER_TABLE[4096]".data :: "\x7b".data
            :: ((List.range 511).map rowData ++ [rowData 511 ++ "\x7d;".data, []])
      ∧ (List.range 512).all (fun k => (rowData k).head? == some '\t') = true
      ∧ [',', ' ', '\x7d', ';'] <:+ rowData 511 ++ "\x7d;".data := by
  refine ⟨splitOn_main, ?_, ?_⟩
  · rw [List.all_eq_true]
    intro k _
    simp [rowData]
  · have h8 : List.range 8 = [0, 1, 2, 3, 4, 5, 6] ++ [7] := by decide
    unfold rowData
    rw [h8, List.map_append, List.flatten_append]
    refine ⟨'\t' :: (((([0, 1, 2, 3, 4, 5, 6] : List ℕ).map fun j =>
        (Nat.repr (timerValue (8 * 511 + j))).data ++ [',', ' ']).flatten)
          ++ (Nat.repr (timerValue (8 * 511 + 7))).data), ?_⟩
    simp

/-- Claim C9: the generator is deterministic and reads no input: two runs of
the program, started in any two worlds (arguments, environment, standard
input) and with any two contents of the memory cell later used for `i`, and
given any fuel, halt with the same output text and the same exit status; the
text is the output of `main`, the status is 0, the world is left as it was,
and a run with fuel 12295 does halt. -/
theorem runs_agree (w₁ w₂ : World) (cell₁ cell₂ fuel₁ fuel₂ : ℕ) (r₁ r₂ : State)
    (h₁ : run fuel₁ (start w₁ cell₁) = some r₁)
    (h₂ : run fuel₂ (start w₂ cell₂) = some r₂) :
    r₁.out = r₂.out ∧ r₁.status = r₂.status
      ∧ r₁.out = main.1 ∧ r₁.status = some 0 ∧ main.2 = 0
      ∧ r₁.world = w₁ ∧ r₂.world = w₂
      ∧ run 12295 (start w₁ cell₁) = some r₁
      ∧ run 12295 (start w₂ cell₂) = some r₂ := by
  have e₁ := run_start w₁ cell₁ 0
  have e₂ := run_start w₂ cell₂ 0
  rw [Nat.zero_add] at e₁ e₂
  have q₁ := run_unique h₁ e₁
  have q₂ := run_unique h₂ e₂
  subst q₁
  subst q₂
  exact ⟨rfl, rfl, rfl, rfl, rfl, rfl, rfl, e₁, e₂⟩

theorem runs_agree_witness :
    (⟨Pc.halted, 4096, main.1, some 0, ⟨[], [], []⟩⟩ : State).out
        = (⟨Pc.halted, 4096, main.1, some 0,
            ⟨["-n", "16"], [("TABLE_SIZE", "16")], ['7', '\n']⟩⟩ : State).out
      ∧ (⟨Pc.halted, 4096, main.1, some 0, ⟨[], [], []⟩⟩ : State).status
        = (⟨Pc.halted, 4096, main.1, some 0,
            ⟨["-n", "16"], [("TABLE_SIZE", "16")], ['7', '\n']⟩⟩ : State).status
      ∧ (⟨Pc.halted, 4096, main.1, some 0, ⟨[], [], []⟩⟩ : State).out = main.1
      ∧ (⟨Pc.halted, 4096, main.1, some 0, ⟨[], [], []⟩⟩ : State).status = some 0
      ∧ main.2 = 0
      ∧ (⟨Pc.halted, 4096, main.1, some 0, ⟨[], [], []⟩⟩ : State).world = ⟨[], [], []⟩
      ∧ (⟨Pc.halted, 4096, main.1, some 0,
            ⟨["-n", "16"], [("TABLE_SIZE", "16")], ['7', '\n']⟩⟩ : State).world
          = ⟨["-n", "16"], [("TABLE_SIZE", "16")], ['7', '\n']⟩
      ∧ run 12295 (start ⟨[], [], []⟩ 0)
          = some ⟨Pc.halted, 4096, main.1, some 0, ⟨[], [], []⟩⟩
      ∧ run 12295 (start ⟨["-n", "16"], [("TABLE_SIZE", "16")], ['7', '\n']⟩ 4242)
          = some ⟨Pc.halted, 4096, main.1, some 0,
              ⟨["-n", "16"], [("TABLE_SIZE", "16")], ['7', '\n']⟩⟩ :=
  runs_agree ⟨[], [], []⟩ ⟨["-n", "16"], [("TABLE_SIZE", "16")], ['7', '\n']⟩ 0 4242
    12295 20000 _ _ (run_start _ _ 0) (run_start _ _ 7705)

/-! ## Voltage range, monotonicity and bounds: claims -/

/-- Claim C11: for every index `i` below 4096 the voltage `(5 * i) / 4096`
is at least 0 and below 5, grows by `5 / 4096` from one index to the next,
is 0 exactly at index 0 and is never 5; the integer product `5 * i` is at
most 20475, which a signed `int` holds without wrap-around, be it 32 or 16
bits wide. -/
theorem volts_range (i : ℕ) (hi : i < 4096) :
    0 ≤ specVolts i ∧ specVolts i < 5
      ∧ specVolts (i + 1) - specVolts i = 5 / 4096
      ∧ (specVolts i = 0 ↔ i = 0)
      ∧ specVolts i ≠ 5
      ∧ 5 * i ≤ 20475
      ∧ intProduct i = 5 * (i : ℤ)
      ∧ wrapSigned 16 (5 * (i : ℤ)) = 5 * (i : ℤ) := by
  have hlt := specVolts_lt_five hi
  refine ⟨?_, hlt, ?_, ?_, ne_of_lt hlt, by omega, ?_, ?_⟩
  · rw [specVolts_eq]
    positivity
  · rw [specVolts_eq, specVolts_eq]
    push_cast
    ring
  · rw [specVolts_eq]
    constructor
    · intro h
      have h4 : (4096 : ℝ) ≠ 0 := by norm_num
      have h5 : 5 * (i : ℝ) = 0 := by
        rcases div_eq_zero_iff.mp h with h' | h'
        · exact h'
        · exact absurd h' h4
      have h6 : (i : ℝ) = 0 := by linarith
      exact_mod_cast h6
    · intro h
      rw [h]
      norm_num
  · unfold intProduct wrapSigned
    norm_num
    omega
  · unfold wrapSigned
    norm_num
    omega

theorem volts_range_witness :
    0 ≤ specVolts 4095 ∧ specVolts 4095 < 5
      ∧ specVolts (4095 + 1) - specVolts 4095 = 5 / 4096
      ∧ (specVolts 4095 = 0 ↔ 4095 = 0)
      ∧ specVolts 4095 ≠ 5
      ∧ 5 * 4095 ≤ 20475
      ∧ intProduct 4095 = 5 * ((4095 : ℕ) : ℤ)
      ∧ wrapSigned 16 (5 * ((4095 : ℕ) : ℤ)) = 5 * ((4095 : ℕ) : ℤ) :=
  volts_range 4095 (by decide)

/-- Claim C12: the table does not increase with the index: for indices
`i ≤ j` below 4096 the value at `j` is at most the value at `i`, while the
frequency at `i` is strictly below the frequency at `j` when `i < j`. -/
theorem table_non_increasing (i j : ℕ) (hij : i ≤ j) (hj : j < 4096) :
    timerValue j ≤ timerValue i ∧ specFreq i ≤ specFreq j
      ∧ (i < j → specFreq i < specFreq j) := by
  have _ := hj
  exact ⟨timerValue_anti hij, specFreq_le hij, fun h => specFreq_lt h⟩

theorem table_non_increasing_witness :
    timerValue 4095 ≤ timerValue 2048 ∧ specFreq 2048 ≤ specFreq 4095
      ∧ (2048 < 4095 → specFreq 2048 < specFreq 4095) :=
  table_non_increasing 2048 4095 (by decide) (by decide)

/-- Claim C13: every emitted value lies between 238 and 7644 inclusive, the
maximum 7644 being attained at index 0; hence the numeral printed for it has
three or four characters, all of them decimal digits (no sign). -/
theorem value_bounds (i : ℕ) (hi : i < 4096) :
    238 ≤ timerValue i ∧ timerValue i ≤ 7644 ∧ timerValue 0 = 7644
      ∧ ((formatD (timerValue i)).length = 3 ∨ (formatD (timerValue i)).length = 4)
      ∧ (formatD (timerValue i)).data.all Char.isDigit = true := by
  have hlo := timerValue_ge hi
  have hhi := timerValue_le i
  refine ⟨hlo, hhi, timerValue_zero, ?_, ?_⟩
  · unfold formatD
    rcases Nat.lt_or_ge (timerValue i) 1000 with h | h
    · left
      exact repr_length_three (by omega) h
    · right
      exact repr_length_four h (by omega)
  · unfold formatD
    rw [List.all_eq_true]
    exact repr_isDigit _

theorem value_bounds_witness :
    238 ≤ timerValue 2048 ∧ timerValue 2048 ≤ 7644 ∧ timerValue 0 = 7644
      ∧ ((formatD (timerValue 2048)).length = 3 ∨ (formatD (timerValue 2048)).length = 4)
      ∧ (formatD (timerValue 2048)).data.all Char.isDigit = true :=
  value_bounds 2048 (by decide)

/-- Claim C14: the output holds exactly 512 newline-and-tab separators and
515 lines in all (header, brace, 512 lines of values, the empty text after
the last newline); each of the 512 lines of values starts with a tab and
holds exactly 8 values, those of indices `8 * k` to `8 * k + 7`, the last
line included, since `4096 = 8 * 512`. -/
theorem rows_of_eight (k : ℕ) (hk : k < 512) :
    countNewlineTab main.1.data = 512
      ∧ (main.1.data.splitOn '\n').length = 515
      ∧ 4096 = 8 * 512
      ∧ ∃ line : List Char,
          (main.1.data.splitOn '\n')[k + 2]? = some line
            ∧ line.head? = some '\t'
            ∧ (commaTokens [] line).length = 8
            ∧ commaTokens [] line
                = (List.range 8).map fun j => (Nat.repr (timerValue (8 * k + j))).data := by
  refine ⟨countNewlineTab_main, ?_, by norm_num, ?_⟩
  · rw [splitOn_main]
    simp
  · refine ⟨_, value_line k hk, ?_, ?_⟩
    · unfold rowData
      rfl
    · have htok : commaTokens [] (rowData k ++ (if k = 511 then ['\x7d', ';'] else []))
          = (List.range 8).map fun j => (Nat.repr (timerValue (8 * k + j))).data := by
        rw [commaTokens_row]
        by_cases h : k = 511
        · rw [if_pos h]
          simp [commaTokens, isBlank]
        · rw [if_neg h]
          simp [commaTokens]
      rw [htok]
      exact ⟨by simp, rfl⟩

theorem rows_of_eight_witness :
    countNewlineTab main.1.data = 512
      ∧ (main.1.data.splitOn '\n').length = 515
      ∧ 4096 = 8 * 512
      ∧ ∃ line : List Char,
          (main.1.data.splitOn '\n')[511 + 2]? = some line
            ∧ line.head? = some '\t'
            ∧ (commaTokens [] line).length = 8
            ∧ commaTokens [] line
                = (List.range 8).map fun j => (Nat.repr (timerValue (8 * 511 + j))).data :=
  rows_of_eight 511 (by decide)

end TableGen
